import Mathlib

/-!
Verification of the `groot` project-root library (`groot_utils.go`).

The embedding fixes the Unix platform of the source repository:
`os.PathSeparator = '/'`, so the two `replaceStringByte` calls inside
`ensureCleanPath` and `cleanFilenames` are identities.  Paths are plain
strings; all character-level work is done on `List Char` and wrapped into
`String` at the API boundary.  The process environment entry `GROOT` is
modelled as an explicit `String` argument, with `""` meaning "unset",
exactly the reading `os.Getenv` gives the Go code.  The filesystem is an
explicit finite structure of file paths and directory paths; `os.Stat`,
the literal-pattern case of `filepath.Glob`, and the loader `godotenv.Load`
(an external collaborator, assumed to succeed) are interpreted against it.
-/

set_option maxHeartbeats 1000000

namespace Groot

/-- Whitespace recognised by the trimming step: the ASCII subset of Go
`unicode.IsSpace` (the repository never feeds non-ASCII whitespace to it). -/
def goSpace (c : Char) : Bool :=
  c = ' ' || c = '\t' || c = '\n' || c = '\x0b' || c = '\x0c' || c = '\r'

/-- Go `strings.TrimSpace` on the character list of a string. -/
def trimChars (l : List Char) : List Char :=
  ((l.dropWhile goSpace).reverse.dropWhile goSpace).reverse

/-- Go `strings.TrimSpace`. -/
def trimGo (s : String) : String := ⟨trimChars s.data⟩

/-- One left-to-right pass of Go `strings.ReplaceAll(path, "//", "/")`: each
occurrence of two consecutive separators is replaced by one separator and the
scan resumes after the replacement. -/
def collapseOnce : List Char → List Char
  | '/' :: '/' :: rest => '/' :: collapseOnce rest
  | c :: rest => c :: collapseOnce rest
  | [] => []

/-- `ensureCleanPath` from `groot_utils.go` on the Unix platform: the
separator conversions are identities, so the function trims whitespace and
makes one `ReplaceAll` pass over doubled separators. -/
def ensureCleanPath (path : String) : String :=
  ⟨collapseOnce (trimChars path.data)⟩

/-- Split a character list on the separator `'/'`; the result always has one
more entry than the number of separators. -/
def splitSep : List Char → List (List Char)
  | [] => [[]]
  | c :: rest =>
    if c = '/' then [] :: splitSep rest
    else
      match splitSep rest with
      | [] => [[c]]
      | g :: gs => (c :: g) :: gs

/-- Join components with single separators (inverse of `splitSep` on
separator-free components). -/
def joinSep : List (List Char) → List Char
  | [] => []
  | [c] => c
  | c :: cs => c ++ '/' :: joinSep cs

/-- The effect of a `".."` component on the (reversed) output stack of Go
`filepath.Clean`: pop the last kept component, unless the stack is empty (at
the root of a rooted path the `".."` is dropped; on a relative path it is
kept) or already ends in a kept `".."` (then another is kept). -/
def cleanPop : Bool → List (List Char) → List (List Char)
  | rooted, [] => if rooted then [] else [['.', '.']]
  | _, a :: rest => if a = ['.', '.'] then ['.', '.'] :: a :: rest else rest

/-- The component stack of Go `filepath.Clean`: empty and `"."` components
are dropped, `".."` pops via `cleanPop`, anything else is kept. -/
def cleanRev (rooted : Bool) : List (List Char) → List (List Char) → List (List Char)
  | out, [] => out.reverse
  | out, c :: cs =>
    if c = [] ∨ c = ['.'] then cleanRev rooted out cs
    else if c = ['.', '.'] then cleanRev rooted (cleanPop rooted out) cs
    else cleanRev rooted (c :: out) cs

/-- Go `filepath.Clean` on Unix, at the level of `'/'`-separated components
(shortest equivalent path: drop `"."` and empty components, resolve `".."`). -/
def cleanChars (l : List Char) : List Char :=
  if l = [] then ['.']
  else if l.head? = some '/' then '/' :: joinSep (cleanRev true [] (splitSep l))
  else if joinSep (cleanRev false [] (splitSep l)) = [] then ['.']
  else joinSep (cleanRev false [] (splitSep l))

/-- Go `filepath.Clean`. -/
def clean (s : String) : String := ⟨cleanChars s.data⟩

/-- Go `filepath.Dir` on Unix: drop everything after the last separator and
`Clean` the remainder (`Clean "" = "."` covers the separator-free case). -/
def dirChars (l : List Char) : List Char :=
  cleanChars ((l.reverse.dropWhile (fun c => c != '/')).reverse)

/-- Go `filepath.Dir`. -/
def dirGo (p : String) : String := ⟨dirChars p.data⟩

/-- Go `filepath.Base` on Unix: strip trailing separators, then keep what
follows the last separator; `""` gives `"."`, an all-separator path `"/"`. -/
def baseChars (l : List Char) : List Char :=
  if l = [] then ['.']
  else
    let l1 := (l.reverse.dropWhile (fun c => c == '/')).reverse
    if l1 = [] then ['/']
    else (l1.reverse.takeWhile (fun c => c != '/')).reverse

/-- Go `filepath.Base`. -/
def baseGo (s : String) : String := ⟨baseChars s.data⟩

/-- Go `filepath.IsAbs` on Unix: the path begins with a separator. -/
def isAbs (s : String) : Bool := s.data.head? = some '/'

/-- Go `filepath.Join` on Unix: drop leading empty elements, join the rest
(from the first non-empty one on) with separators, and `Clean` the result;
all-empty input yields `""`. -/
def joinGo (elems : List String) : String :=
  match elems.dropWhile (fun e => e == "") with
  | [] => ""
  | rest => clean (String.intercalate "/" rest)

/-- `FromRoot` from `groot_utils.go`.  The stored root is the first argument
(`""` = unset).  Go evaluates `root == "" || filepath.IsAbs(path[0])` with
short-circuit: when the root is unset, `path[0]` is never read; otherwise an
empty segment list panics with an index-out-of-range, embedded as `none`. -/
def FromRoot (env : String) (path : List String) : Option String :=
  if env = "" then some (joinGo path)
  else
    match path with
    | [] => none
    | p0 :: _ => some (if isAbs p0 then joinGo path else joinGo [env, joinGo path])

/-- The loop of `IterateThroughPath`, bounded by explicit fuel; the theorem
`iterFuel_last_fix` below shows the fuel spent by `parentChain` always
suffices, so the bounded loop coincides with Go's unbounded `for` loop. -/
def iterFuel : Nat → String → List String
  | 0, p => [p]
  | n + 1, p => if dirGo p = p then [p] else p :: iterFuel n (dirGo p)

/-- The chain `p, Dir(p), Dir(Dir(p)), …` up to the first self-parent. -/
def parentChain (p : String) : List String := iterFuel (p.data.length + 2) p

/-- `IterateThroughPath` from `groot_utils.go`: clean the input, then walk
`filepath.Dir` upward, appending the final fixed point. -/
def IterateThroughPath (path : String) : List String :=
  parentChain (ensureCleanPath path)

/-- The number of parent-directory steps from `p` down to the self-parent
fixed point — the depth of `p` in the ancestor ordering. -/
def pathDepth (p : String) : Nat := (parentChain p).length - 1

/-- A survivor of `cleanFilenames` filtering: non-empty after trimming and
free of path separators. -/
def keepName (f : String) : Bool := !(f == "" || f.data.contains '/')

/-- `cleanFilenames` from `groot_utils.go`: trim each name (the separator
conversion is an identity on Unix), drop empties and names containing a
separator, deduplicate.  Go collects the survivors in a map and reads them
back in unspecified order; the embedding fixes one order, and every theorem
below uses only membership, emptiness and `Nodup`, which are order-free. -/
def cleanFilenames (filenames : List String) : List String :=
  ((filenames.map trimGo).filter keepName).dedup

/-- The filesystem: existing regular-file paths and existing directory paths,
intended disjoint (a real filesystem never has both at one path). -/
structure FS where
  files : List String
  dirs : List String

/-- `os.Stat`: `none` = stat error (no such path), `some true` = existing
directory, `some false` = existing non-directory file. -/
def FS.statDir? (fs : FS) (p : String) : Option Bool :=
  if fs.dirs.contains p then some true
  else if fs.files.contains p then some false
  else none

/-- `filepath.Glob` for a pattern without metacharacters (a bare filename
joined onto a directory, the only shape the repository produces): the joined
path itself when it exists, else no match. -/
def globLit (fs : FS) (pat : String) : List String :=
  if (fs.statDir? pat).isSome then [pat] else []

/-- `findFiles` from `groot_utils.go`: glob every requested name under the
directory and concatenate the hits in request order. -/
def findFiles (fs : FS) (dirPath : String) (fileNames : List String) : List String :=
  fileNames.flatMap (fun n => globLit fs (joinGo [dirPath, n]))

/-- The `for … range IterateThroughPath` loop of `SetRoot`: accumulate glob
hits directory by directory; at the first directory holding a non-directory
file named `entry`, store that directory in the environment (`os.Setenv`) and
break.  Returns the accumulated candidate files and the environment value the
following `os.Getenv` reads. -/
def walkChain (fs : FS) (entry : String) (names : List String) :
    List String → List String → String → List String × String
  | [], acc, env0 => (acc, env0)
  | p :: rest, acc, env0 =>
    let acc' := acc ++ findFiles fs p names
    if fs.statDir? (joinGo [p, entry]) = some false then (acc', p)
    else walkChain fs entry names rest acc' env0

/-- The `GROOT` value `SetRoot` reads back after its walk. -/
def rootAfterWalk (fs : FS) (projectDir env0 entryFile : String)
    (envFiles : List String) : String :=
  (walkChain fs (trimGo entryFile) (cleanFilenames envFiles)
    (IterateThroughPath projectDir) [] env0).2

/-- The candidate env-file list of `SetRoot` after the walk, including the
entry file itself (resolved under the committed root) when its name ends in
`.env`. -/
def candidateFiles (fs : FS) (projectDir env0 entryFile : String)
    (envFiles : List String) : List String :=
  let w := walkChain fs (trimGo entryFile) (cleanFilenames envFiles)
    (IterateThroughPath projectDir) [] env0
  if (".env".data).isSuffixOf (trimGo entryFile).data then
    w.1 ++ [joinGo [w.2, trimGo entryFile]]
  else w.1

/-- `definedEnvsFlag` of `SetRoot`: the caller-supplied names, joined into one
string, are non-empty after trimming. -/
def definedEnvs (envFiles : List String) : Prop :=
  trimGo (String.join envFiles) ≠ ""

instance (envFiles : List String) : Decidable (definedEnvs envFiles) := by
  unfold definedEnvs; infer_instance

/-- Outcome of `SetRoot`; `ok` is Go's `nil` (the loader, an external
collaborator, is assumed to succeed on the paths handed to it). -/
inductive SRResult
  | ok
  | entryNotDefined
  | badEnvsDefined
  | noRootFound
  | noEnvDefined
  | missingEnvs
deriving DecidableEq

/-- Result of a `SetRoot` call: the `GROOT` value after the call, the returned
error, and the paths passed to `godotenv.Load` (`[]` = loader never called). -/
structure SetRootOut where
  env : String
  result : SRResult
  loaded : List String
deriving DecidableEq

/-- `SetRoot` from `groot_utils.go`.  `projectDir` stands for the result of
`GetProjectDir` (execution-context detection, a runtime-introspection step the
claims take as given) and `env0` for the `GROOT` value before the call. -/
def SetRoot (fs : FS) (projectDir env0 entryFile : String)
    (envFiles : List String) : SetRootOut :=
  if trimGo entryFile = "" then ⟨env0, .entryNotDefined, []⟩
  else if definedEnvs envFiles ∧ cleanFilenames envFiles = [] then
    ⟨env0, .badEnvsDefined, []⟩
  else if rootAfterWalk fs projectDir env0 entryFile envFiles = "" then
    ⟨"", .noRootFound, []⟩
  else if envFiles = [] ∨ ¬definedEnvs envFiles then
    (if candidateFiles fs projectDir env0 entryFile envFiles ≠ [] then
      ⟨rootAfterWalk fs projectDir env0 entryFile envFiles, .ok,
        candidateFiles fs projectDir env0 entryFile envFiles⟩
    else ⟨rootAfterWalk fs projectDir env0 entryFile envFiles, .noEnvDefined, []⟩)
  else if ∃ r ∈ cleanFilenames envFiles,
      r ∉ (candidateFiles fs projectDir env0 entryFile envFiles).map baseGo then
    ⟨rootAfterWalk fs projectDir env0 entryFile envFiles, .missingEnvs, []⟩
  else if candidateFiles fs projectDir env0 entryFile envFiles ≠ [] then
    ⟨rootAfterWalk fs projectDir env0 entryFile envFiles, .ok,
      candidateFiles fs projectDir env0 entryFile envFiles⟩
  else ⟨rootAfterWalk fs projectDir env0 entryFile envFiles, .ok, []⟩

/-- Strip the common leading elements of two component lists (the
element-wise matching loop of Go `filepath.Rel`). -/
def stripCommon :
    List (List Char) → List (List Char) → List (List Char) × List (List Char)
  | b :: bs, t :: ts => if b = t then stripCommon bs ts else (b :: bs, t :: ts)
  | bs, ts => (bs, ts)

/-- The cleaned base path of `filepath.Rel`, with `"."` turned into the empty
string. -/
def relBase (basep : List Char) : List Char :=
  if cleanChars basep = ['.'] then [] else cleanChars basep

/-- The element list the `Rel` loop walks: none for an empty base, a single
empty element for `"/"` (its one element spans zero bytes in the Go loop),
otherwise the `'/'`-split elements. -/
def relElems (b : List Char) : List (List Char) :=
  if b = [] then [] else if b = ['/'] then [[]] else splitSep b

/-- Go `filepath.Rel` on Unix, at the level of `'/'`-separated elements:
clean both paths, return `"."` on equality, reject mixed absolute/relative
inputs and a leading `".."` surviving on the base after dropping the common
leading elements, then climb with one `".."` per remaining base element and
descend with the remaining target elements.  `none` is Go's error return. -/
def relChars (basep targp : List Char) : Option (List Char) :=
  if cleanChars targp = cleanChars basep then some ['.']
  else if ((relBase basep).head? = some '/')
      ≠ ((cleanChars targp).head? = some '/') then none
  else if (stripCommon (relElems (relBase basep))
      (relElems (cleanChars targp))).1.head? = some ['.', '.'] then none
  else some (joinSep
    ((stripCommon (relElems (relBase basep))
        (relElems (cleanChars targp))).1.map (fun _ => ['.', '.'])
      ++ (stripCommon (relElems (relBase basep))
        (relElems (cleanChars targp))).2))

/-- Go `filepath.Rel` (error as `none`). -/
def relGo (basepath targpath : String) : Option String :=
  (relChars basepath.data targpath.data).map (fun l => ⟨l⟩)

/-- Go `strings.HasPrefix(rel, "..")`. -/
def startsWithDotDot : List Char → Bool
  | '.' :: '.' :: _ => true
  | _ => false

/-- `IsInRoot` from `groot_utils.go`: with a set root, clean both strings,
take the relative path from root to path, and succeed unless that fails or
the relative path starts with `".."`. -/
def IsInRoot (env : String) (path : String) : Bool :=
  if env = "" then false
  else
    match relChars (ensureCleanPath env).data (ensureCleanPath path).data with
    | none => false
    | some rel => !startsWithDotDot rel

/-- `IsRoot` from `groot_utils.go`: with a set root, compare the cleaned path
with the cleaned root. -/
def IsRoot (env : String) (path : String) : Bool :=
  if env = "" then false
  else ensureCleanPath path == ensureCleanPath env

/-- Result of `GetRelativeToRoot`. -/
inductive RelResult
  | ok (rel : String)
  | rootNotSet
  | relFailed
deriving DecidableEq

/-- `GetRelativeToRoot` from `groot_utils.go`: requires a set root, then
returns `filepath.Rel` of the cleaned root and cleaned path. -/
def GetRelativeToRoot (env : String) (path : String) : RelResult :=
  if env = "" then .rootNotSet
  else
    match relChars (ensureCleanPath env).data (ensureCleanPath path).data with
    | none => .relFailed
    | some rel => .ok ⟨rel⟩

/-- Result of `SetRootFromPath`. -/
inductive PathResult
  | ok
  | emptyPath
  | statFailed
  | notADirectory
deriving DecidableEq

/-- `SetRootFromPath` from `groot_utils.go`: trim, resolve a relative path
against the project directory, stat the result, require a directory, and
store it under `GROOT`.  Returns the `GROOT` value after the call together
with the outcome. -/
def SetRootFromPath (fs : FS) (projectDir env0 path : String) :
    String × PathResult :=
  if trimGo path = "" then (env0, .emptyPath)
  else if isAbs (trimGo path) then
    match fs.statDir? (trimGo path) with
    | none => (env0, .statFailed)
    | some false => (env0, .notADirectory)
    | some true => (trimGo path, .ok)
  else
    match fs.statDir? (joinGo [projectDir, trimGo path]) with
    | none => (env0, .statFailed)
    | some false => (env0, .notADirectory)
    | some true => (joinGo [projectDir, trimGo path], .ok)

/-- Fixture with a single existing directory, for `SetRootFromPath`. -/
def fsDirOnly : FS := ⟨[], ["/srv/app", "/"]⟩

/-- A well-formed path component: non-empty, free of separators and
whitespace, and not one of the special names `"."` and `".."`.  Ordinary
directory trees are built from such components. -/
def ValidComp (c : List Char) : Prop :=
  c ≠ [] ∧ '/' ∉ c ∧ (∀ ch ∈ c, goSpace ch = false) ∧ c ≠ ['.'] ∧ c ≠ ['.', '.']

instance (c : List Char) : Decidable (ValidComp c) := by
  unfold ValidComp; infer_instance

/-- All components of a list are well-formed. -/
def ValidComps (l : List (List Char)) : Prop := ∀ c ∈ l, ValidComp c

instance (l : List (List Char)) : Decidable (ValidComps l) := by
  unfold ValidComps; infer_instance

/-- The absolute path with the given components (`mkAbsS [] = "/"`). -/
def mkAbsS (rs : List (List Char)) : String := ⟨'/' :: joinSep rs⟩

/-- Total size of a component list counted as characters plus one separator
per component; `splitSep l` always weighs `l.length + 1`. -/
def compWeight (l : List (List Char)) : Nat :=
  (l.map (fun c => c.length + 1)).sum

/-- Termination measure for the `filepath.Dir` iteration: a path containing a
separator strictly shrinks, a separator-free path jumps to `"."`, and `"."`
is a fixed point. -/
def dirMeasure (p : String) : Nat :=
  if '/' ∈ p.data then p.data.length + 2 else if p = "." then 0 else 1

/-- Fixture for the spec scenario of C4: marker `app.id` at `/home/u/proj`,
aux file `dev.env` both at `/home/u/proj` and at `/home/u`. -/
def fsScenario : FS :=
  ⟨["/home/u/proj/app.id", "/home/u/proj/dev.env", "/home/u/dev.env"],
   ["/home/u/proj/src", "/home/u/proj", "/home/u", "/home", "/"]⟩

/-- Fixture with a marker at `/p` and no env files anywhere. -/
def fsMarkerOnly : FS := ⟨["/p/app.id"], ["/p", "/"]⟩

/-- The empty filesystem. -/
def fsEmpty : FS := ⟨[], []⟩

/-- The environment value after `walkChain` is the initial one when no visited
directory holds a non-directory file named `entry` (the `os.Setenv` branch is
never taken). -/
theorem walkChain_snd_of_no_hit (fs : FS) (entry : String) (names : List String) :
    ∀ chain acc env0,
      (∀ d ∈ chain, ¬fs.statDir? (joinGo [d, entry]) = some false) →
      (walkChain fs entry names chain acc env0).2 = env0
  | [], _, _, _ => rfl
  | p :: rest, acc, env0, h => by
    unfold walkChain
    rw [if_neg (h p (by simp))]
    exact walkChain_snd_of_no_hit fs entry names rest _ env0
      (fun d hd => h d (by simp [hd]))

/-- C1 (amended): when no directory of the ancestor chain contains a
non-directory file named after the (non-blank) entry file, and the auxiliary
filename validation passes, the stored `GROOT` value is exactly what it was
before the call — and the call returns `NoRootFound` if and only if the root
was unset beforehand; a previously set root is silently kept and treated as
the root. -/
theorem setRoot_no_marker (fs : FS) (pd env0 entryFile : String)
    (envs : List String)
    (h1 : trimGo entryFile ≠ "")
    (h2 : ¬(definedEnvs envs ∧ cleanFilenames envs = []))
    (h3 : ∀ d ∈ IterateThroughPath pd,
      ¬fs.statDir? (joinGo [d, trimGo entryFile]) = some false) :
    (SetRoot fs pd env0 entryFile envs).env = env0 ∧
      ((SetRoot fs pd env0 entryFile envs).result = SRResult.noRootFound ↔ env0 = "") := by
  have hroot : rootAfterWalk fs pd env0 entryFile envs = env0 :=
    walkChain_snd_of_no_hit fs (trimGo entryFile) (cleanFilenames envs)
      (IterateThroughPath pd) [] env0 h3
  unfold SetRoot
  rw [if_neg h1, if_neg h2, hroot]
  by_cases h0 : env0 = ""
  · rw [if_pos h0]
    exact ⟨h0.symm, by simp [h0]⟩
  · rw [if_neg h0]
    split_ifs <;> simp [h0, hroot]

/-- C1, counterexample to the claim as stated: with a previously set root
(`"/old"`) and the marker absent from every directory of the chain, the call
does not return `NoRootFound` — the stale value survives the `os.Getenv`
read-back and the call proceeds (here failing later with `NoEnvDefined`).
The root is nevertheless left untouched. -/
theorem setRoot_stale_root_kept :
    (∀ d ∈ IterateThroughPath "/p",
      ¬fsEmpty.statDir? (joinGo [d, trimGo "app.id"]) = some false) ∧
      (SetRoot fsEmpty "/p" "/old" "app.id" []).result ≠ SRResult.noRootFound ∧
      (SetRoot fsEmpty "/p" "/old" "app.id" []).result = SRResult.noEnvDefined ∧
      (SetRoot fsEmpty "/p" "/old" "app.id" []).env = "/old" := by
  decide

/-- Closed instance of `setRoot_no_marker`: on the empty filesystem with the
root unset beforehand, the call returns `NoRootFound`. -/
theorem setRoot_no_marker_witness :
    (SetRoot fsEmpty "/p" "" "app.id" []).result = SRResult.noRootFound :=
  ((setRoot_no_marker fsEmpty "/p" "" "app.id" []
    (by decide) (by decide) (by decide)).2).mpr rfl

/-- C4: in the spec scenario (start `/home/u/proj/src`, marker `app.id` at
`/home/u/proj`, `dev.env` at both `/home/u/proj` and `/home/u`), `SetRoot`
commits the root to `/home/u/proj`, the candidate list contains
`/home/u/proj/dev.env`, and `/home/u/dev.env` is absent because the walk
breaks at the marker directory before ever visiting `/home/u`. -/
theorem setRoot_scenario :
    (SetRoot fsScenario "/home/u/proj/src" "" "app.id" ["dev.env"]).env
        = "/home/u/proj" ∧
      (SetRoot fsScenario "/home/u/proj/src" "" "app.id" ["dev.env"]).result
        = SRResult.ok ∧
      candidateFiles fsScenario "/home/u/proj/src" "" "app.id" ["dev.env"]
        = ["/home/u/proj/dev.env"] ∧
      "/home/u/dev.env" ∉
        candidateFiles fsScenario "/home/u/proj/src" "" "app.id" ["dev.env"] ∧
      (SetRoot fsScenario "/home/u/proj/src" "" "app.id" ["dev.env"]).loaded
        = ["/home/u/proj/dev.env"] := by
  decide

/-- C3, evaluation at the failing input `"///"`: the single `ReplaceAll` pass
rewrites `"///"` to `"//"`, so applying `ensureCleanPath` twice yields `"/"`
and differs from applying it once — idempotence fails, contradicting the
function comment "removes duplicate separators" and the spec property
`normalize(normalize(p)) = normalize(p)`. -/
theorem ensureCleanPath_not_idempotent :
    ensureCleanPath "///" = "//" ∧ ensureCleanPath "//" = "/" ∧
      ensureCleanPath (ensureCleanPath "///") ≠ ensureCleanPath "///" := by
  decide

/-- C9: on a non-empty segment list, `FromRoot` returns the plain join of the
segments whenever the root is unset or the first segment is absolute, and the
root joined with the joined segments otherwise. -/
theorem fromRoot_nonempty (env p0 : String) (ps : List String) :
    FromRoot env (p0 :: ps) =
      some (if env = "" ∨ isAbs p0 = true then joinGo (p0 :: ps)
            else joinGo [env, joinGo (p0 :: ps)]) := by
  unfold FromRoot
  by_cases h : env = ""
  · simp [h]
  · by_cases h2 : isAbs p0 <;> simp [h, h2]

/-- C10 (amended): `FromRoot` with zero segments hits the unguarded `path[0]`
index (modelled as `none`) exactly when a root is stored; when the root is
unset, the short-circuited condition skips the index and the call returns the
empty plain join. -/
theorem fromRoot_empty (env : String) :
    FromRoot env [] = if env = "" then some "" else none := by
  unfold FromRoot
  by_cases h : env = "" <;> simp [h, joinGo]

/-- C10, counterexample to the claim as stated: with the root unset the call
does not panic — it returns the plain join `""` (the panic value is embedded
as `none`, and the result is `some ""`). -/
theorem fromRoot_empty_unset_no_panic : FromRoot "" [] = some "" := by
  decide

/-- C5: whenever specific auxiliary filenames were requested, a root was
committed, and some requested bare filename is not the base name of any entry
of the collected candidate list, `SetRoot` fails with `MissingEnvs` and no
file is handed to the external loader. -/
theorem setRoot_missingEnvs (fs : FS) (pd env0 entryFile : String)
    (envs : List String)
    (h1 : trimGo entryFile ≠ "")
    (h2 : definedEnvs envs)
    (h3 : rootAfterWalk fs pd env0 entryFile envs ≠ "")
    (h4 : ∃ r ∈ cleanFilenames envs,
      r ∉ (candidateFiles fs pd env0 entryFile envs).map baseGo) :
    (SetRoot fs pd env0 entryFile envs).result = SRResult.missingEnvs ∧
      (SetRoot fs pd env0 entryFile envs).loaded = [] := by
  have hne : cleanFilenames envs ≠ [] := by
    obtain ⟨r, hr, _⟩ := h4
    intro h
    rw [h] at hr
    exact absurd hr (List.not_mem_nil r)
  have henvs : envs ≠ [] := by
    intro h
    rw [h] at h2
    exact h2 (by decide)
  unfold SetRoot
  rw [if_neg h1, if_neg (fun hc => hne hc.2), if_neg h3,
    if_neg (fun hc => hc.elim henvs (fun hd => hd h2)), if_pos h4]
  exact ⟨rfl, rfl⟩

/-- Closed instance of `setRoot_missingEnvs`: the marker is found at `/p` but
the requested `x.env` exists nowhere on the chain. -/
theorem setRoot_missingEnvs_witness :
    (SetRoot fsMarkerOnly "/p" "" "app.id" ["x.env"]).result
        = SRResult.missingEnvs ∧
      (SetRoot fsMarkerOnly "/p" "" "app.id" ["x.env"]).loaded = [] :=
  setRoot_missingEnvs fsMarkerOnly "/p" "" "app.id" ["x.env"]
    (by decide) (by decide) (by decide) (by decide)

/-- A name is discarded by the filter exactly when it is empty or contains a
separator. -/
theorem keepName_eq_false (f : String) :
    keepName f = false ↔ (f = "" ∨ f.data.contains '/' = true) := by
  unfold keepName
  by_cases he : f = "" <;> by_cases hc : f.data.contains '/' <;> simp [he, hc]

/-- C6: with a non-blank entry file, `SetRoot` returns `BadAuxFilesDefined`
exactly when the supplied auxiliary filenames join to a string that is
non-empty after trimming yet no name survives filtering; the filter output is
duplicate-free, and it is empty exactly when every supplied name trims to the
empty string or contains a path separator. -/
theorem setRoot_badEnvs (fs : FS) (pd env0 entryFile : String)
    (envs : List String) (h1 : trimGo entryFile ≠ "") :
    ((SetRoot fs pd env0 entryFile envs).result = SRResult.badEnvsDefined ↔
        (trimGo (String.join envs) ≠ "" ∧ cleanFilenames envs = [])) ∧
      (cleanFilenames envs).Nodup ∧
      (cleanFilenames envs = [] ↔
        ∀ n ∈ envs, trimGo n = "" ∨ (trimGo n).data.contains '/' = true) := by
  refine ⟨?_, List.nodup_dedup _, ?_⟩
  · unfold SetRoot
    rw [if_neg h1]
    by_cases h2 : definedEnvs envs ∧ cleanFilenames envs = []
    · rw [if_pos h2]
      exact ⟨fun _ => h2, fun _ => rfl⟩
    · rw [if_neg h2]
      constructor
      · intro hres
        exfalso
        revert hres
        split_ifs <;> simp
      · intro hc
        exact absurd hc h2
  · unfold cleanFilenames
    rw [List.dedup_eq_nil, List.filter_eq_nil_iff]
    constructor
    · intro h n hn
      have h2 := h (trimGo n) (List.mem_map_of_mem trimGo hn)
      exact (keepName_eq_false (trimGo n)).mp (by simpa using h2)
    · intro h f hf
      obtain ⟨n, hn, rfl⟩ := List.mem_map.mp hf
      have h3 := (keepName_eq_false (trimGo n)).mpr (h n hn)
      simp [h3]

/-- Closed instance of `setRoot_badEnvs`: the only supplied name contains a
separator, so the call fails with `BadAuxFilesDefined`. -/
theorem setRoot_badEnvs_witness :
    (SetRoot fsEmpty "/p" "" "x" ["a/b"]).result = SRResult.badEnvsDefined :=
  (setRoot_badEnvs fsEmpty "/p" "" "x" ["a/b"] (by decide)).1.mpr
    ⟨by decide, by decide⟩

/-- C7: for an existing absolute directory path (already whitespace-free),
`SetRootFromPath` succeeds and stores the path, after which `IsRoot` on that
path is true and `GetRelativeToRoot` on it returns `"."` without error. -/
theorem setRootFromPath_roundtrip (fs : FS) (pd env0 p : String)
    (h1 : trimGo p = p) (h2 : isAbs p = true)
    (h3 : fs.statDir? p = some true) :
    SetRootFromPath fs pd env0 p = (p, PathResult.ok) ∧
      IsRoot p p = true ∧
      GetRelativeToRoot p p = RelResult.ok "." := by
  have hp : p ≠ "" := by
    intro h
    rw [h] at h2
    exact absurd h2 (by decide)
  refine ⟨?_, ?_, ?_⟩
  · unfold SetRootFromPath
    rw [h1, if_neg hp, if_pos h2, h3]
  · unfold IsRoot
    rw [if_neg hp]
    simp
  · unfold GetRelativeToRoot
    rw [if_neg hp]
    have hrel :
        relChars (ensureCleanPath p).data (ensureCleanPath p).data
          = some ['.'] := by
      unfold relChars
      simp
    rw [hrel]

/-- Closed instance of `setRootFromPath_roundtrip` at `/srv/app`. -/
theorem setRootFromPath_roundtrip_witness :
    SetRootFromPath fsDirOnly "/x" "" "/srv/app" = ("/srv/app", PathResult.ok) ∧
      IsRoot "/srv/app" "/srv/app" = true ∧
      GetRelativeToRoot "/srv/app" "/srv/app" = RelResult.ok "." :=
  setRootFromPath_roundtrip fsDirOnly "/x" "" "/srv/app"
    (by decide) (by decide) (by decide)

theorem collapseOnce_cons_ne (a : Char) (l : List Char) (h : ¬a = '/') :
    collapseOnce (a :: l) = a :: collapseOnce l := by
  rw [collapseOnce.eq_def]
  split
  · rename_i heq
    injection heq with h1 h2
    exact absurd h1 h
  · rename_i heq
    injection heq with h1 h2
    rw [← h1, ← h2]
  · rename_i heq
    exact absurd heq (by simp)

theorem collapseOnce_sep_cons (x : List Char) (h : x.head? ≠ some '/') :
    collapseOnce ('/' :: x) = '/' :: collapseOnce x := by
  cases x with
  | nil => rfl
  | cons b t =>
    have hb : ¬b = '/' := by
      intro hh
      exact h (by simp [hh])
    rw [collapseOnce.eq_def]
    split
    · rename_i heq
      injection heq with h1 h2
      injection h2 with h3 h4
      exact absurd h3 hb
    · rename_i heq
      injection heq with h1 h2
      rw [← h1, ← h2]
    · rename_i heq
      exact absurd heq (by simp)

theorem collapseOnce_nosep_append (c x : List Char) (h : '/' ∉ c) :
    collapseOnce (c ++ x) = c ++ collapseOnce x := by
  induction c with
  | nil => rfl
  | cons a t ih =>
    have ha : ¬a = '/' := fun hh => h (by simp [hh])
    have ht : '/' ∉ t := fun hh => h (List.mem_cons_of_mem a hh)
    rw [List.cons_append, collapseOnce_cons_ne a _ ha, ih ht]
    rfl

theorem splitSep_nosep (c : List Char) (h : '/' ∉ c) : splitSep c = [c] := by
  induction c with
  | nil => rfl
  | cons a t ih =>
    have ha : ¬a = '/' := fun hh => h (by simp [hh])
    have ht : '/' ∉ t := fun hh => h (List.mem_cons_of_mem a hh)
    simp [splitSep, ha, ih ht]

theorem splitSep_append_sep (c x : List Char) (h : '/' ∉ c) :
    splitSep (c ++ '/' :: x) = c :: splitSep x := by
  induction c with
  | nil => simp [splitSep]
  | cons a t ih =>
    have ha : ¬a = '/' := fun hh => h (by simp [hh])
    have ht : '/' ∉ t := fun hh => h (List.mem_cons_of_mem a hh)
    simp [splitSep, ha, ih ht]

theorem splitSep_ne_nil (l : List Char) : splitSep l ≠ [] := by
  cases l with
  | nil => simp [splitSep]
  | cons a t =>
    by_cases ha : a = '/'
    · simp [splitSep, ha]
    · simp only [splitSep, if_neg ha]
      cases splitSep t <;> simp

theorem joinSep_cons_cons (c d : List Char) (rs : List (List Char)) :
    joinSep (c :: d :: rs) = c ++ '/' :: joinSep (d :: rs) := rfl

theorem splitSep_joinSep (rs : List (List Char)) (hne : rs ≠ [])
    (hv : ∀ c ∈ rs, '/' ∉ c) : splitSep (joinSep rs) = rs := by
  induction rs with
  | nil => exact absurd rfl hne
  | cons c rs ih =>
    cases rs with
    | nil => exact splitSep_nosep c (hv c (by simp))
    | cons d rs2 =>
      rw [joinSep_cons_cons, splitSep_append_sep c _ (hv c (by simp)),
        ih (by simp) (fun e he => hv e (List.mem_cons_of_mem c he))]

theorem joinSep_head_of_ne (d : List Char) (rs : List (List Char)) (hd : d ≠ []) :
    (joinSep (d :: rs)).head? = d.head? := by
  cases rs with
  | nil => rfl
  | cons e rs2 =>
    rw [joinSep_cons_cons]
    cases d with
    | nil => exact absurd rfl hd
    | cons a t => rfl

theorem joinSep_head_ne_sep (d : List Char) (rs2 : List (List Char))
    (hd : d ≠ []) (hs : '/' ∉ d) : (joinSep (d :: rs2)).head? ≠ some '/' := by
  rw [joinSep_head_of_ne d rs2 hd]
  cases d with
  | nil => exact absurd rfl hd
  | cons a t =>
    simp only [List.head?_cons]
    intro hh
    injection hh with h1
    exact hs (by simp [h1])

theorem joinSep_eq_nil (rs : List (List Char)) (hv : ∀ c ∈ rs, c ≠ [])
    (h : joinSep rs = []) : rs = [] := by
  cases rs with
  | nil => rfl
  | cons c rs2 =>
    cases rs2 with
    | nil => exact absurd h (hv c (by simp))
    | cons d rs3 =>
      rw [joinSep_cons_cons] at h
      simp at h

theorem joinSep_inj (A B : List (List Char))
    (hA : ∀ c ∈ A, '/' ∉ c ∧ c ≠ []) (hB : ∀ c ∈ B, '/' ∉ c ∧ c ≠ [])
    (h : joinSep A = joinSep B) : A = B := by
  by_cases ha : A = []
  · subst ha
    have : joinSep B = [] := h.symm
    rw [joinSep_eq_nil B (fun c hc => (hB c hc).2) this]
  · by_cases hb : B = []
    · subst hb
      exact absurd (joinSep_eq_nil A (fun c hc => (hA c hc).2) h) ha
    · have h1 := splitSep_joinSep A ha (fun c hc => (hA c hc).1)
      have h2 := splitSep_joinSep B hb (fun c hc => (hB c hc).1)
      rw [← h1, ← h2, h]

theorem mem_joinSep (c : Char) (rs : List (List Char)) (h : c ∈ joinSep rs) :
    c = '/' ∨ ∃ d ∈ rs, c ∈ d := by
  induction rs with
  | nil => simp [joinSep] at h
  | cons d rs ih =>
    cases rs with
    | nil => exact Or.inr ⟨d, by simp, h⟩
    | cons e rs2 =>
      rw [joinSep_cons_cons] at h
      rcases List.mem_append.mp h with h1 | h2
      · exact Or.inr ⟨d, by simp, h1⟩
      · rcases List.mem_cons.mp h2 with h3 | h4
        · exact Or.inl h3
        · rcases ih h4 with h5 | ⟨f, hf, hcf⟩
          · exact Or.inl h5
          · exact Or.inr ⟨f, by simp [hf], hcf⟩

theorem cleanRev_valid (r : Bool) (rs : List (List Char))
    (hv : ∀ c ∈ rs, c ≠ [] ∧ c ≠ ['.'] ∧ c ≠ ['.', '.']) :
    ∀ out, cleanRev r out rs = out.reverse ++ rs := by
  induction rs with
  | nil => intro out; simp [cleanRev]
  | cons c rs ih =>
    intro out
    have hc := hv c (by simp)
    unfold cleanRev
    rw [if_neg (by rintro (h1 | h2); exacts [hc.1 h1, hc.2.1 h2]), if_neg hc.2.2]
    rw [ih (fun e he => hv e (by simp [he])) (c :: out)]
    simp

theorem dropWhile_eq_self_of_none (p : Char → Bool) (l : List Char)
    (h : ∀ c ∈ l, p c = false) : l.dropWhile p = l := by
  cases l with
  | nil => rfl
  | cons a t => simp [List.dropWhile_cons, h a (by simp)]

theorem trimChars_eq_self (l : List Char) (h : ∀ c ∈ l, goSpace c = false) :
    trimChars l = l := by
  unfold trimChars
  rw [dropWhile_eq_self_of_none goSpace l h,
    dropWhile_eq_self_of_none goSpace l.reverse
      (fun c hc => h c (List.mem_reverse.mp hc)),
    List.reverse_reverse]

theorem collapseOnce_joinSep (rs : List (List Char))
    (hv : ∀ c ∈ rs, '/' ∉ c ∧ c ≠ []) :
    collapseOnce (joinSep rs) = joinSep rs := by
  induction rs with
  | nil => rfl
  | cons c rs ih =>
    cases rs with
    | nil =>
      have h1 := collapseOnce_nosep_append c [] (hv c (by simp)).1
      rw [show collapseOnce ([] : List Char) = [] from rfl, List.append_nil] at h1
      exact h1
    | cons d rs2 =>
      rw [joinSep_cons_cons, collapseOnce_nosep_append c _ (hv c (by simp)).1]
      congr 1
      rw [collapseOnce_sep_cons _
        (joinSep_head_ne_sep d rs2 (hv d (by simp)).2 (hv d (by simp)).1)]
      rw [ih (fun e he => hv e (List.mem_cons_of_mem c he))]

theorem ecp_mkAbs (rs : List (List Char)) (hv : ValidComps rs) :
    ensureCleanPath (mkAbsS rs) = mkAbsS rs := by
  have h1 : trimChars ('/' :: joinSep rs) = '/' :: joinSep rs := by
    apply trimChars_eq_self
    intro c hc
    rcases List.mem_cons.mp hc with h | h
    · rw [h]; decide
    · rcases mem_joinSep c rs h with h2 | ⟨d, hd, hcd⟩
      · rw [h2]; decide
      · exact (hv d hd).2.2.1 c hcd
  have h2 : collapseOnce ('/' :: joinSep rs) = '/' :: joinSep rs := by
    cases rs with
    | nil => rfl
    | cons d rs2 =>
      rw [collapseOnce_sep_cons _
        (joinSep_head_ne_sep d rs2 (hv d (by simp)).1 (hv d (by simp)).2.1)]
      rw [collapseOnce_joinSep _ (fun e he => ⟨(hv e he).2.1, (hv e he).1⟩)]
  show String.mk (collapseOnce (trimChars ('/' :: joinSep rs)))
      = String.mk ('/' :: joinSep rs)
  rw [h1, h2]

theorem cleanChars_mkAbs (rs : List (List Char)) (hv : ValidComps rs) :
    cleanChars ('/' :: joinSep rs) = '/' :: joinSep rs := by
  cases rs with
  | nil => decide
  | cons d rs2 =>
    unfold cleanChars
    rw [if_neg (by simp), if_pos (by simp)]
    congr 1
    have hs : splitSep ('/' :: joinSep (d :: rs2)) = [] :: (d :: rs2) := by
      rw [show splitSep ('/' :: joinSep (d :: rs2))
          = [] :: splitSep (joinSep (d :: rs2)) from by simp [splitSep]]
      rw [splitSep_joinSep _ (by simp) (fun c hc => (hv c hc).2.1)]
    rw [hs]
    rw [show cleanRev true [] ([] :: d :: rs2) = cleanRev true [] (d :: rs2)
      from by simp [cleanRev]]
    rw [cleanRev_valid true _
      (fun c hc => ⟨(hv c hc).1, (hv c hc).2.2.2.1, (hv c hc).2.2.2.2⟩) []]
    simp

theorem relElems_mkAbs (rs : List (List Char)) (hv : ValidComps rs) :
    relElems ('/' :: joinSep rs) = [] :: rs := by
  unfold relElems
  rw [if_neg (by simp)]
  cases rs with
  | nil => rfl
  | cons d rs2 =>
    have hne : ¬('/' :: joinSep (d :: rs2) : List Char) = ['/'] := by
      intro hh
      injection hh with h1 h2
      exact absurd (joinSep_eq_nil _ (fun c hc => (hv c hc).1) h2) (by simp)
    rw [if_neg hne]
    rw [show splitSep ('/' :: joinSep (d :: rs2))
        = [] :: splitSep (joinSep (d :: rs2)) from by simp [splitSep]]
    rw [splitSep_joinSep _ (by simp) (fun c hc => (hv c hc).2.1)]

theorem stripCommon_append (xs ys zs : List (List Char))
    (h : ys = [] ∨ zs = [] ∨ ys.head? ≠ zs.head?) :
    stripCommon (xs ++ ys) (xs ++ zs) = (ys, zs) := by
  induction xs with
  | nil =>
    simp only [List.nil_append]
    cases ys with
    | nil => cases zs <;> rfl
    | cons y ys2 =>
      cases zs with
      | nil => rfl
      | cons z zs2 =>
        have hyz : ¬y = z := by
          rcases h with h1 | h2 | h3
          · exact absurd h1 (by simp)
          · exact absurd h2 (by simp)
          · intro hh
            exact h3 (by simp [hh])
        unfold stripCommon
        rw [if_neg hyz]
  | cons x xs ih =>
    simp only [List.cons_append]
    unfold stripCommon
    rw [if_pos rfl]
    exact ih

theorem relChars_split (xs ys zs : List (List Char))
    (hv1 : ValidComps (xs ++ ys)) (hv2 : ValidComps (xs ++ zs))
    (hmis : ys = [] ∨ zs = [] ∨ ys.head? ≠ zs.head?)
    (hne : ¬(ys = [] ∧ zs = [])) :
    relChars ('/' :: joinSep (xs ++ ys)) ('/' :: joinSep (xs ++ zs))
      = some (joinSep (ys.map (fun _ => ['.', '.']) ++ zs)) := by
  have hvp1 : ∀ c ∈ xs ++ ys, '/' ∉ c ∧ c ≠ [] :=
    fun c hc => ⟨(hv1 c hc).2.1, (hv1 c hc).1⟩
  have hvp2 : ∀ c ∈ xs ++ zs, '/' ∉ c ∧ c ≠ [] :=
    fun c hc => ⟨(hv2 c hc).2.1, (hv2 c hc).1⟩
  have hb := cleanChars_mkAbs (xs ++ ys) hv1
  have ht := cleanChars_mkAbs (xs ++ zs) hv2
  have hrb : relBase ('/' :: joinSep (xs ++ ys)) = '/' :: joinSep (xs ++ ys) := by
    unfold relBase
    rw [hb, if_neg (by simp)]
  have hneq : ¬('/' :: joinSep (xs ++ zs) : List Char)
      = '/' :: joinSep (xs ++ ys) := by
    intro hh
    injection hh with h1 h2
    have h3 := joinSep_inj _ _ hvp2 hvp1 h2
    have hzy : zs = ys := List.append_cancel_left h3
    rcases hmis with h4 | h4 | h4
    · exact hne ⟨h4, by rw [hzy, h4]⟩
    · exact hne ⟨by rw [← hzy, h4], h4⟩
    · exact h4 (by rw [hzy])
  have hhead : ¬(ys.head? = some ['.', '.']) := by
    cases ys with
    | nil => simp
    | cons y ys2 =>
      simp only [List.head?_cons]
      intro hh
      injection hh with h1
      exact (hv1 y (List.mem_append.mpr (Or.inr (by simp)))).2.2.2.2 h1
  unfold relChars
  rw [hb, ht, hrb]
  rw [if_neg hneq]
  rw [if_neg (fun hn => hn (by simp))]
  rw [relElems_mkAbs (xs ++ ys) hv1, relElems_mkAbs (xs ++ zs) hv2]
  rw [show ([] :: (xs ++ ys) : List (List Char)) = ([] :: xs) ++ ys from by simp,
    show ([] :: (xs ++ zs) : List (List Char)) = ([] :: xs) ++ zs from by simp]
  rw [stripCommon_append ([] :: xs) ys zs hmis]
  rw [if_neg hhead]

theorem mkAbsS_ne_empty (rs : List (List Char)) : mkAbsS rs ≠ "" := by
  intro h
  have h2 := congrArg String.data h
  simp [mkAbsS] at h2

theorem isInRoot_mkAbs (xs ys zs : List (List Char))
    (hv1 : ValidComps (xs ++ ys)) (hv2 : ValidComps (xs ++ zs))
    (hmis : ys = [] ∨ zs = [] ∨ ys.head? ≠ zs.head?)
    (hne : ¬(ys = [] ∧ zs = [])) :
    IsInRoot (mkAbsS (xs ++ ys)) (mkAbsS (xs ++ zs))
      = !startsWithDotDot (joinSep (ys.map (fun _ => ['.', '.']) ++ zs)) := by
  unfold IsInRoot
  rw [if_neg (mkAbsS_ne_empty _)]
  rw [ecp_mkAbs _ hv1, ecp_mkAbs _ hv2]
  rw [show (mkAbsS (xs ++ ys)).data = '/' :: joinSep (xs ++ ys) from rfl,
    show (mkAbsS (xs ++ zs)).data = '/' :: joinSep (xs ++ zs) from rfl]
  rw [relChars_split xs ys zs hv1 hv2 hmis hne]

/-- C2 (amended): with a root set, `IsInRoot` is true when the path equals
the root; for a descendant built from well-formed components it is true
exactly when the relative path below the root (the joined remaining
components) does not begin with the two characters `".."` — a first component
such as `"..d"` makes it false; it is false for the root's parent directory
and false for any path in an unrelated sibling tree. -/
theorem isInRoot_cases :
    (∀ root : String, root ≠ "" → IsInRoot root root = true) ∧
      (∀ rs ds, ValidComps rs → ValidComps ds → ds ≠ [] →
        IsInRoot (mkAbsS rs) (mkAbsS (rs ++ ds))
          = !startsWithDotDot (joinSep ds)) ∧
      (∀ rs c, ValidComps rs → ValidComp c →
        IsInRoot (mkAbsS (rs ++ [c])) (mkAbsS rs) = false) ∧
      (∀ rs a b ds, ValidComps rs → ValidComp a → ValidComp b → ValidComps ds →
        a ≠ b →
        IsInRoot (mkAbsS (rs ++ [a])) (mkAbsS (rs ++ (b :: ds))) = false) := by
  refine ⟨?_, ?_, ?_, ?_⟩
  · intro root hroot
    unfold IsInRoot
    rw [if_neg hroot]
    rw [show relChars (ensureCleanPath root).data (ensureCleanPath root).data
        = some ['.'] from by unfold relChars; rw [if_pos rfl]]
    rfl
  · intro rs ds hrs hds hdsne
    have h1 : ValidComps (rs ++ ([] : List (List Char))) := by simpa using hrs
    have h2 : ValidComps (rs ++ ds) :=
      fun c hc => (List.mem_append.mp hc).elim (hrs c) (hds c)
    have h3 := isInRoot_mkAbs rs [] ds h1 h2 (Or.inl rfl) (fun hc => hdsne hc.2)
    simpa using h3
  · intro rs c hrs hc
    have h1 : ValidComps (rs ++ [c]) := fun e he =>
      (List.mem_append.mp he).elim (hrs e)
        (fun h => by rw [List.mem_singleton.mp h]; exact hc)
    have h2 : ValidComps (rs ++ ([] : List (List Char))) := by simpa using hrs
    have h3 := isInRoot_mkAbs rs [c] [] h1 h2 (Or.inr (Or.inl rfl)) (by simp)
    simpa using h3
  · intro rs a b ds hrs ha hb hds hab
    have h1 : ValidComps (rs ++ [a]) := fun e he =>
      (List.mem_append.mp he).elim (hrs e)
        (fun h => by rw [List.mem_singleton.mp h]; exact ha)
    have h2 : ValidComps (rs ++ (b :: ds)) := fun e he =>
      (List.mem_append.mp he).elim (hrs e)
        (fun h => by
          rcases List.mem_cons.mp h with h4 | h5
          · rw [h4]; exact hb
          · exact hds e h5)
    have hm : ([a] : List (List Char)).head? ≠ (b :: ds).head? := by
      simp only [List.head?_cons]
      intro hh
      injection hh with h3
      exact hab h3
    have h3 := isInRoot_mkAbs rs [a] (b :: ds) h1 h2 (Or.inr (Or.inr hm)) (by simp)
    rw [h3]
    rfl

/-- C2, counterexample to the claim as stated: `"/r" ++ "/" ++ "..d"` is a
descendant of the root `"/r"`, yet `IsInRoot` returns false because the
relative path `"..d"` shares its first two characters with the
parent-traversal marker. -/
theorem isInRoot_descendant_counterexample :
    IsInRoot "/r" ("/r" ++ "/" ++ "..d") = false := by decide

/-- Closed instances of `isInRoot_cases`: equality, a well-formed
descendant, the parent, and a sibling. -/
theorem isInRoot_cases_witness :
    IsInRoot "/r" "/r" = true ∧
      IsInRoot (mkAbsS [['r']]) (mkAbsS ([['r']] ++ [['s']])) = true ∧
      IsInRoot (mkAbsS ([['r']] ++ [['s']])) (mkAbsS [['r']]) = false ∧
      IsInRoot (mkAbsS ([['r']] ++ [['a']])) (mkAbsS ([['r']] ++ (['b'] :: [])))
        = false := by
  have h := isInRoot_cases
  refine ⟨h.1 "/r" (by decide), ?_, ?_, ?_⟩
  · exact (h.2.1 [['r']] [['s']] (by decide) (by decide) (by decide)).trans (by decide)
  · exact h.2.2.1 [['r']] ['s'] (by decide) (by decide)
  · exact h.2.2.2 [['r']] ['a'] ['b'] [] (by decide) (by decide) (by decide)
      (by decide) (by decide)

theorem compWeight_nil : compWeight [] = 0 := rfl

theorem compWeight_cons (x : List Char) (l : List (List Char)) :
    compWeight (x :: l) = (x.length + 1) + compWeight l := by
  simp [compWeight]

theorem compWeight_reverse (l : List (List Char)) :
    compWeight l.reverse = compWeight l := by
  unfold compWeight
  rw [List.map_reverse, List.sum_reverse]

theorem compWeight_splitSep (l : List Char) :
    compWeight (splitSep l) = l.length + 1 := by
  induction l with
  | nil => rfl
  | cons a t ih =>
    by_cases ha : a = '/'
    · simp only [splitSep, if_pos ha, compWeight_cons, List.length_nil,
        List.length_cons]
      omega
    · cases hs : splitSep t with
      | nil => exact absurd hs (splitSep_ne_nil t)
      | cons g gs =>
        rw [hs] at ih
        simp only [splitSep, if_neg ha, hs, compWeight_cons, List.length_cons] at ih ⊢
        omega

theorem cleanPop_weight (r : Bool) (out : List (List Char)) :
    compWeight (cleanPop r out) ≤ compWeight out + 3 := by
  cases out with
  | nil =>
    cases r with
    | true => simp [cleanPop, compWeight]
    | false => simp [cleanPop, compWeight]
  | cons a rest =>
    by_cases h : a = ['.', '.']
    · rw [show cleanPop r (a :: rest) = ['.', '.'] :: a :: rest from by
        simp [cleanPop, h]]
      simp only [compWeight_cons, h, List.length_cons, List.length_nil]
      omega
    · rw [show cleanPop r (a :: rest) = rest from by simp [cleanPop, h]]
      simp only [compWeight_cons]
      omega

theorem cleanRev_weight (r : Bool) (cs : List (List Char)) :
    ∀ out, compWeight (cleanRev r out cs) ≤ compWeight out + compWeight cs := by
  induction cs with
  | nil =>
    intro out
    rw [show cleanRev r out [] = out.reverse from rfl, compWeight_reverse]
    omega
  | cons c cs ih =>
    intro out
    unfold cleanRev
    by_cases h1 : c = [] ∨ c = ['.']
    · rw [if_pos h1]
      have := ih out
      simp only [compWeight_cons]
      omega
    · rw [if_neg h1]
      by_cases h2 : c = ['.', '.']
      · rw [if_pos h2]
        have h4 := ih (cleanPop r out)
        have h5 := cleanPop_weight r out
        simp only [compWeight_cons, h2] at h4 ⊢
        simp only [List.length_cons, List.length_nil] at h4 ⊢
        omega
      · rw [if_neg h2]
        have := ih (c :: out)
        simp only [compWeight_cons] at this ⊢
        omega

theorem splitSep_append_sep_nil (t : List Char) :
    splitSep (t ++ ['/']) = splitSep t ++ [[]] := by
  induction t with
  | nil => rfl
  | cons a t ih =>
    by_cases ha : a = '/'
    · simp [splitSep, ha, ih]
    · cases hs : splitSep t with
      | nil => exact absurd hs (splitSep_ne_nil t)
      | cons g gs =>
        rw [hs] at ih
        simp [splitSep, ha, ih, hs]

theorem cleanRev_append_nil (r : Bool) :
    ∀ (cs out : List (List Char)),
      cleanRev r out (cs ++ [[]]) = cleanRev r out cs
  | [], out => by simp [cleanRev]
  | c :: cs, out => by
    rw [List.cons_append]
    unfold cleanRev
    by_cases h1 : c = [] ∨ c = ['.']
    · rw [if_pos h1, if_pos h1]
      exact cleanRev_append_nil r cs out
    · rw [if_neg h1, if_neg h1]
      by_cases h2 : c = ['.', '.']
      · rw [if_pos h2, if_pos h2]
        exact cleanRev_append_nil r cs _
      · rw [if_neg h2, if_neg h2]
        exact cleanRev_append_nil r cs _

theorem joinSep_length (K : List (List Char)) (h : K ≠ []) :
    (joinSep K).length + 1 = compWeight K := by
  induction K with
  | nil => exact absurd rfl h
  | cons c K ih =>
    cases K with
    | nil => simp [joinSep, compWeight]
    | cons d K2 =>
      rw [joinSep_cons_cons]
      have := ih (by simp)
      simp only [compWeight_cons, List.length_append, List.length_cons] at this ⊢
      omega

theorem cleanChars_length_le (l : List Char) (h : l ≠ []) :
    (cleanChars l).length ≤ l.length := by
  unfold cleanChars
  rw [if_neg h]
  by_cases hr : l.head? = some '/'
  · rw [if_pos hr]
    cases l with
    | nil => exact absurd rfl h
    | cons a t =>
      have ha : a = '/' := by simpa using hr
      subst ha
      rw [show splitSep ('/' :: t) = [] :: splitSep t from by simp [splitSep]]
      rw [show cleanRev true [] ([] :: splitSep t) = cleanRev true [] (splitSep t)
        from by simp [cleanRev]]
      have hw := cleanRev_weight true (splitSep t) []
      rw [compWeight_nil] at hw
      have hst := compWeight_splitSep t
      by_cases hk : cleanRev true [] (splitSep t) = []
      · rw [hk, show joinSep ([] : List (List Char)) = [] from rfl]
        simp
      · have hjl := joinSep_length _ hk
        simp only [List.length_cons]
        omega
  · rw [if_neg hr]
    have hw := cleanRev_weight false (splitSep l) []
    rw [compWeight_nil] at hw
    have hst := compWeight_splitSep l
    by_cases hj : joinSep (cleanRev false [] (splitSep l)) = []
    · rw [if_pos hj]
      have hlen : 0 < l.length := List.length_pos.mpr h
      simp only [List.length_cons, List.length_nil]
      omega
    · rw [if_neg hj]
      have hk : cleanRev false [] (splitSep l) ≠ [] := by
        intro hh
        rw [hh] at hj
        exact hj rfl
      have hjl := joinSep_length _ hk
      omega

theorem cleanChars_trailing_lt (t : List Char) (h : t ≠ []) :
    (cleanChars (t ++ ['/'])).length < (t ++ ['/']).length := by
  have hne : t ++ ['/'] ≠ [] := by simp
  unfold cleanChars
  rw [if_neg hne]
  by_cases hr : (t ++ ['/']).head? = some '/'
  · rw [if_pos hr]
    cases t with
    | nil => exact absurd rfl h
    | cons a t2 =>
      have ha : a = '/' := by
        rw [List.cons_append] at hr
        simpa using hr
      subst ha
      rw [List.cons_append]
      rw [show splitSep ('/' :: (t2 ++ ['/'])) = [] :: splitSep (t2 ++ ['/'])
        from by simp [splitSep]]
      rw [splitSep_append_sep_nil t2]
      rw [show cleanRev true [] ([] :: (splitSep t2 ++ [[]]))
          = cleanRev true [] (splitSep t2 ++ [[]]) from by simp [cleanRev]]
      rw [cleanRev_append_nil true (splitSep t2) []]
      have hw := cleanRev_weight true (splitSep t2) []
      rw [compWeight_nil] at hw
      have hst := compWeight_splitSep t2
      by_cases hk : cleanRev true [] (splitSep t2) = []
      · rw [hk, show joinSep ([] : List (List Char)) = [] from rfl]
        simp only [List.length_cons, List.length_append, List.length_nil]
        omega
      · have hjl := joinSep_length _ hk
        simp only [List.length_cons, List.length_append, List.length_nil]
        omega
  · rw [if_neg hr]
    rw [splitSep_append_sep_nil t]
    rw [cleanRev_append_nil false (splitSep t) []]
    have hw := cleanRev_weight false (splitSep t) []
    rw [compWeight_nil] at hw
    have hst := compWeight_splitSep t
    have hlen : 0 < t.length := List.length_pos.mpr h
    by_cases hj : joinSep (cleanRev false [] (splitSep t)) = []
    · rw [if_pos hj]
      simp only [List.length_cons, List.length_nil, List.length_append]
      omega
    · rw [if_neg hj]
      have hk : cleanRev false [] (splitSep t) ≠ [] := by
        intro hh
        rw [hh] at hj
        exact hj rfl
      have hjl := joinSep_length _ hk
      simp only [List.length_append, List.length_cons, List.length_nil]
      omega

theorem dropWhile_head_sep (m : List Char) (h : '/' ∈ m) :
    (m.dropWhile (fun c => c != '/')).head? = some '/' := by
  induction m with
  | nil => simp at h
  | cons a m2 ih =>
    by_cases ha : a = '/'
    · rw [List.dropWhile_cons]
      simp [ha]
    · rw [List.dropWhile_cons]
      have hm : '/' ∈ m2 := by
        rcases List.mem_cons.mp h with h1 | h2
        · exact absurd h1.symm ha
        · exact h2
      simp [ha, ih hm]

theorem dirChars_of_no_sep (l : List Char) (h : '/' ∉ l) : dirChars l = ['.'] := by
  unfold dirChars
  have hd : l.reverse.dropWhile (fun c => c != '/') = [] := by
    rw [List.dropWhile_eq_nil_iff]
    intro x hx
    have hxne : x ≠ '/' := fun hh => h (hh ▸ List.mem_reverse.mp hx)
    simpa using hxne
  rw [hd]
  decide

theorem dirChars_length_lt (l : List Char) (hsep : '/' ∈ l)
    (hne : dirChars l ≠ l) : (dirChars l).length < l.length := by
  have hh : (l.reverse.dropWhile (fun c => c != '/')).head? = some '/' :=
    dropWhile_head_sep l.reverse (List.mem_reverse.mpr hsep)
  cases hdc : l.reverse.dropWhile (fun c => c != '/') with
  | nil =>
    rw [hdc] at hh
    simp at hh
  | cons x d2 =>
    have hx : x = '/' := by
      rw [hdc] at hh
      simpa using hh
    subst hx
    have hpre : dirChars l = cleanChars (d2.reverse ++ ['/']) := by
      unfold dirChars
      rw [hdc, List.reverse_cons]
    have hsuf : ('/' :: d2) <:+ l.reverse := by
      rw [← hdc]
      exact List.dropWhile_suffix _
    have hdlen : ('/' :: d2).length ≤ l.length := by
      have := hsuf.sublist.length_le
      simpa using this
    by_cases hfull : ('/' :: d2).length = l.length
    · have hdl : ('/' :: d2) = l.reverse :=
        hsuf.sublist.eq_of_length (by simpa using hfull)
      have hl : l = d2.reverse ++ ['/'] := by
        rw [← List.reverse_reverse l, ← hdl, List.reverse_cons]
      by_cases hd2 : d2.reverse = []
      · exfalso
        apply hne
        rw [hl, hd2, List.nil_append]
        decide
      · rw [hpre, hl]
        exact cleanChars_trailing_lt d2.reverse hd2
    · have hlt : ('/' :: d2).length < l.length := lt_of_le_of_ne hdlen hfull
      rw [hpre]
      have hle := cleanChars_length_le (d2.reverse ++ ['/']) (by simp)
      have hlen2 : (d2.reverse ++ ['/']).length = ('/' :: d2).length := by simp
      omega

theorem dirGo_of_no_sep (p : String) (h : '/' ∉ p.data) : dirGo p = "." := by
  unfold dirGo
  rw [dirChars_of_no_sep p.data h]

theorem dirMeasure_lt (p : String) (h : ¬dirGo p = p) :
    dirMeasure (dirGo p) < dirMeasure p := by
  by_cases hs : '/' ∈ p.data
  · have hne : dirChars p.data ≠ p.data := by
      intro hh
      apply h
      show String.mk (dirChars p.data) = p
      rw [hh]
    have hlt := dirChars_length_lt p.data hs hne
    have hmp : dirMeasure p = p.data.length + 2 := by
      unfold dirMeasure
      rw [if_pos hs]
    have hdata : (dirGo p).data = dirChars p.data := rfl
    by_cases hs2 : '/' ∈ (dirGo p).data
    · have hmd : dirMeasure (dirGo p) = (dirGo p).data.length + 2 := by
        unfold dirMeasure
        rw [if_pos hs2]
      rw [hmd, hmp, hdata]
      omega
    · have hmd : dirMeasure (dirGo p) ≤ 1 := by
        unfold dirMeasure
        rw [if_neg hs2]
        split_ifs <;> omega
      rw [hmp]
      omega
  · have hdot : dirGo p = "." := dirGo_of_no_sep p hs
    have hp : ¬p = "." := by
      intro hh
      subst hh
      exact h hdot
    have h1 : dirMeasure p = 1 := by
      unfold dirMeasure
      rw [if_neg hs, if_neg hp]
    have h2 : dirMeasure (dirGo p) = 0 := by
      rw [hdot]
      decide
    omega

theorem dirMeasure_zero (p : String) (h : dirMeasure p = 0) : dirGo p = p := by
  unfold dirMeasure at h
  by_cases h1 : '/' ∈ p.data
  · rw [if_pos h1] at h
    omega
  · rw [if_neg h1] at h
    by_cases h2 : p = "."
    · rw [h2]
      decide
    · rw [if_neg h2] at h
      omega

theorem iterFuel_ne_nil (n : Nat) (p : String) : iterFuel n p ≠ [] := by
  cases n with
  | zero => simp [iterFuel]
  | succ n =>
    unfold iterFuel
    split <;> simp

theorem iterFuel_head (n : Nat) (p : String) : (iterFuel n p).head? = some p := by
  cases n with
  | zero => rfl
  | succ n =>
    unfold iterFuel
    split <;> rfl

theorem iterFuel_zeroth (n : Nat) (p : String) : (iterFuel n p)[0]? = some p := by
  cases n with
  | zero => rfl
  | succ n =>
    unfold iterFuel
    split <;> simp

theorem iterFuel_fix (n : Nat) (p : String) (h : dirGo p = p) :
    iterFuel n p = [p] := by
  cases n with
  | zero => rfl
  | succ n =>
    unfold iterFuel
    rw [if_pos h]

theorem iterFuel_cons (n : Nat) (p : String) (h : ¬dirGo p = p) :
    iterFuel (n + 1) p = p :: iterFuel n (dirGo p) := by
  rw [show iterFuel (n + 1) p
    = if dirGo p = p then [p] else p :: iterFuel n (dirGo p) from rfl, if_neg h]

theorem iterFuel_congr (n : Nat) :
    ∀ (m : Nat) (p : String), dirMeasure p ≤ n → dirMeasure p ≤ m →
      iterFuel n p = iterFuel m p := by
  induction n with
  | zero =>
    intro m p h0 hm
    have hfix := dirMeasure_zero p (Nat.le_zero.mp h0)
    rw [iterFuel_fix 0 p hfix, iterFuel_fix m p hfix]
  | succ n ih =>
    intro m p hn hm
    by_cases hfix : dirGo p = p
    · rw [iterFuel_fix _ p hfix, iterFuel_fix m p hfix]
    · have hlt := dirMeasure_lt p hfix
      have h1 : dirMeasure p ≠ 0 := fun hh => hfix (dirMeasure_zero p hh)
      cases m with
      | zero => exact absurd (Nat.le_zero.mp hm) h1
      | succ m2 =>
        rw [iterFuel_cons n p hfix, iterFuel_cons m2 p hfix]
        congr 1
        exact ih m2 (dirGo p) (by omega) (by omega)

theorem iterFuel_last_fix (n : Nat) :
    ∀ (p : String), dirMeasure p ≤ n →
      ∀ q, (iterFuel n p).getLast? = some q → dirGo q = q := by
  induction n with
  | zero =>
    intro p h0 q hq
    have hfix := dirMeasure_zero p (Nat.le_zero.mp h0)
    rw [show iterFuel 0 p = [p] from rfl] at hq
    have hpq : p = q := by simpa using hq
    rw [← hpq]
    exact hfix
  | succ n ih =>
    intro p hn q hq
    by_cases hfix : dirGo p = p
    · rw [iterFuel_fix _ p hfix] at hq
      have hpq : p = q := by simpa using hq
      rw [← hpq]
      exact hfix
    · have hlt := dirMeasure_lt p hfix
      rw [iterFuel_cons n p hfix] at hq
      cases hc : iterFuel n (dirGo p) with
      | nil => exact absurd hc (iterFuel_ne_nil n (dirGo p))
      | cons x xs =>
        rw [hc, List.getLast?_cons_cons] at hq
        apply ih (dirGo p) (by omega) q
        rw [hc]
        exact hq

theorem iterFuel_succ_rel (n : Nat) :
    ∀ (p : String) (i : Nat) (q r : String),
      (iterFuel n p)[i]? = some q → (iterFuel n p)[i + 1]? = some r →
      r = dirGo q := by
  induction n with
  | zero =>
    intro p i q r h1 h2
    rw [show iterFuel 0 p = [p] from rfl,
      List.getElem?_eq_none (by simp)] at h2
    exact absurd h2 (by simp)
  | succ n ih =>
    intro p i q r h1 h2
    by_cases hfix : dirGo p = p
    · rw [iterFuel_fix _ p hfix, List.getElem?_eq_none (by simp)] at h2
      exact absurd h2 (by simp)
    · rw [iterFuel_cons n p hfix] at h1 h2
      cases i with
      | zero =>
        rw [List.getElem?_cons_zero] at h1
        rw [List.getElem?_cons_succ, iterFuel_zeroth] at h2
        injection h1 with h1
        injection h2 with h2
        rw [← h1]
        exact h2.symm
      | succ i2 =>
        rw [List.getElem?_cons_succ] at h1 h2
        exact ih (dirGo p) i2 q r h1 h2

theorem iterFuel_not_fix (n : Nat) :
    ∀ (p : String) (i : Nat) (q r : String), dirMeasure p ≤ n →
      (iterFuel n p)[i]? = some q → (iterFuel n p)[i + 1]? = some r →
      ¬dirGo q = q := by
  induction n with
  | zero =>
    intro p i q r h0 h1 h2
    rw [show iterFuel 0 p = [p] from rfl,
      List.getElem?_eq_none (by simp)] at h2
    exact absurd h2 (by simp)
  | succ n ih =>
    intro p i q r hn h1 h2
    by_cases hfix : dirGo p = p
    · rw [iterFuel_fix _ p hfix, List.getElem?_eq_none (by simp)] at h2
      exact absurd h2 (by simp)
    · rw [iterFuel_cons n p hfix] at h1 h2
      cases i with
      | zero =>
        rw [List.getElem?_cons_zero] at h1
        injection h1 with h1
        rw [← h1]
        exact hfix
      | succ i2 =>
        rw [List.getElem?_cons_succ] at h1 h2
        have hlt := dirMeasure_lt p hfix
        exact ih (dirGo p) i2 q r (by omega) h1 h2

theorem dirMeasure_le_fuel (p : String) : dirMeasure p ≤ p.data.length + 2 := by
  unfold dirMeasure
  split_ifs <;> omega

theorem parentChain_ne_nil (p : String) : parentChain p ≠ [] :=
  iterFuel_ne_nil _ _

theorem parentChain_cons (p : String) (h : ¬dirGo p = p) :
    parentChain p = p :: parentChain (dirGo p) := by
  unfold parentChain
  rw [show p.data.length + 2 = (p.data.length + 1) + 1 from rfl]
  rw [iterFuel_cons (p.data.length + 1) p h]
  congr 1
  apply iterFuel_congr
  · have h1 := dirMeasure_lt p h
    have h2 := dirMeasure_le_fuel p
    omega
  · exact dirMeasure_le_fuel (dirGo p)

theorem pathDepth_parent_lt (p : String) (h : ¬dirGo p = p) :
    pathDepth (dirGo p) < pathDepth p := by
  unfold pathDepth
  rw [parentChain_cons p h]
  have h2 : 0 < (parentChain (dirGo p)).length :=
    List.length_pos.mpr (parentChain_ne_nil (dirGo p))
  simp only [List.length_cons]
  omega

/-- C8: for every input path, `IterateThroughPath` terminates and returns a
finite sequence that starts with the cleaned input, in which each element
after the first is `filepath.Dir` of the previous one, whose elements are
strictly decreasing in path depth (`pathDepth`: the number of successive
parent steps down to the self-parent fixed point, i.e. the node's depth in
the ancestor ordering), and whose last element is its own parent. -/
theorem iterate_chain_spec (path : String) :
    (IterateThroughPath path).head? = some (ensureCleanPath path) ∧
      (∀ i p q, (IterateThroughPath path)[i]? = some p →
        (IterateThroughPath path)[i + 1]? = some q →
        q = dirGo p ∧ pathDepth q < pathDepth p) ∧
      ∀ p, (IterateThroughPath path).getLast? = some p → dirGo p = p := by
  unfold IterateThroughPath parentChain
  refine ⟨iterFuel_head _ _, ?_, ?_⟩
  · intro i p q h1 h2
    have hq := iterFuel_succ_rel _ (ensureCleanPath path) i p q h1 h2
    have hnf := iterFuel_not_fix _ (ensureCleanPath path) i p q
      (dirMeasure_le_fuel _) h1 h2
    refine ⟨hq, ?_⟩
    rw [hq]
    exact pathDepth_parent_lt p hnf
  · intro p hp
    exact iterFuel_last_fix _ (ensureCleanPath path) (dirMeasure_le_fuel _) p hp

/-- Closed instance of `iterate_chain_spec` on `"/a/b"`, whose chain is
`["/a/b", "/a", "/"]`. -/
theorem iterate_chain_spec_witness :
    ("/a" = dirGo "/a/b" ∧ pathDepth "/a" < pathDepth "/a/b") ∧
      dirGo "/" = "/" := by
  have h := iterate_chain_spec "/a/b"
  exact ⟨h.2.1 0 "/a/b" "/a" (by decide) (by decide), h.2.2 "/" (by decide)⟩

end Groot
